import Mathlib

/-!
# Verification of rust-itertools adaptors (src/src/adaptors.rs)

Shallow embedding of the iterator adaptors `Interleave`, `FnMap`, `PutBack`,
`Product`, `Dedup` from `src/src/adaptors.rs`, together with a model of
`ZipLongest` (its module is declared in `src/src/lib.rs` but its code is not
present; it is modelled from the specification).

Underlying iterators are embedded as Lean lists pulled from the front: the
state of a base iterator is the list of elements it has not yet yielded, and
its `size_hint` is `(length, some length)` (the exact hint a slice/vec
iterator reports).  Each adaptor's `next(&mut self)` becomes a pure function
`state → Option value × state` (the returned state is the mutated `self`).
Machine integers (`uint`) are embedded as `Nat` with an explicit maximum
`UINT_MAX`; `saturating_add`, `checked_add`, `checked_mul` are defined from
that bound.
-/

set_option autoImplicit false

namespace Itertools

universe u v

/-- `uint::MAX` for a 64-bit target. -/
def UINT_MAX : Nat := 2 ^ 64 - 1

/-- Rust `uint::saturating_add` on values embedded in `Nat`:
clamps at `UINT_MAX` instead of wrapping. -/
def saturating_add (x y : Nat) : Nat := min (x + y) UINT_MAX

/-- Rust `uint::checked_add`: `none` exactly when the exact sum exceeds
`UINT_MAX`. -/
def checked_add (x y : Nat) : Option Nat :=
  if x + y ≤ UINT_MAX then some (x + y) else none

/-- Rust `uint::checked_mul`: `none` exactly when the exact product exceeds
`UINT_MAX`. -/
def checked_mul (x y : Nat) : Option Nat :=
  if x * y ≤ UINT_MAX then some (x * y) else none

/-- A `size_hint` value: lower bound and optional upper bound. -/
abbrev SizeHint : Type := Nat × Option Nat

/-- The `size_hint` of a list-backed base iterator: exact on both ends. -/
def listHint {α : Type u} (l : List α) : SizeHint := (l.length, some l.length)

/-- Generic fuelled driver: repeatedly call an embedded `next` function,
collecting the yielded elements in order.  One unit of fuel is spent per
call to `step`. -/
def runIt {σ : Type u} {α : Type v} (step : σ → Option α × σ) : Nat → σ → List α
  | 0, _ => []
  | n + 1, s =>
    match step s with
    | (none, _) => []
    | (some x, s') => x :: runIt step n s'

/-- Iterate the state part of an embedded `next` function `n` times. -/
def stepN {σ : Type u} {α : Type v} (step : σ → Option α × σ) : Nat → σ → σ
  | 0, s => s
  | n + 1, s => stepN step n (step s).2

/-! ## Interleave (adaptors.rs lines 14–44) -/

/-- State of `Interleave<I, J>`: the two base iterators and the alternation
flag (`flag: bool`, starts `false`). -/
structure InterleaveState (α : Type u) : Type u where
  a : List α
  b : List α
  flag : Bool

namespace Interleave

/-- `Interleave::new(a, b)`: `flag` starts `false`. -/
def new {α : Type u} (a b : List α) : InterleaveState α := ⟨a, b, false⟩

/-- `Interleave::next`: toggle the flag; on `true` pull `a` first falling back
to `b`, on `false` pull `b` first falling back to `a`. -/
def next {α : Type u} (s : InterleaveState α) : Option α × InterleaveState α :=
  let flag := !s.flag
  if flag then
    match s.a with
    | [] =>
      match s.b with
      | [] => (none, ⟨[], [], flag⟩)
      | y :: b' => (some y, ⟨[], b', flag⟩)
    | x :: a' => (some x, ⟨a', s.b, flag⟩)
  else
    match s.b with
    | [] =>
      match s.a with
      | [] => (none, ⟨[], [], flag⟩)
      | x :: a' => (some x, ⟨a', [], flag⟩)
    | y :: b' => (some y, ⟨s.a, b', flag⟩)

end Interleave

/-! ## FnMap (adaptors.rs lines 52–90) -/

/-- State of `FnMap<A, B, I>`: the mapping function and the base iterator. -/
structure FnMapState (α : Type u) (β : Type v) : Type (max u v) where
  map : α → β
  iter : List α

namespace FnMap

/-- `FnMap::new`. -/
def new {α : Type u} {β : Type v} (iter : List α) (map : α → β) : FnMapState α β :=
  ⟨map, iter⟩

/-- `FnMap::next`: `self.iter.next().map(|a| (self.map)(a))`. -/
def next {α : Type u} {β : Type v} (s : FnMapState α β) : Option β × FnMapState α β :=
  match s.iter with
  | [] => (none, s)
  | x :: rest => (some (s.map x), ⟨s.map, rest⟩)

end FnMap

/-! ## PutBack (adaptors.rs lines 96–134) -/

/-- State of `PutBack<A, I>`: the put-back slot and the base iterator. -/
structure PutBackState (α : Type u) : Type u where
  top : Option α
  iter : List α

namespace PutBack

/-- `PutBack::new(it)`: empty slot. -/
def new {α : Type u} (it : List α) : PutBackState α := ⟨none, it⟩

/-- `PutBack::put_back(x)`: overwrite the slot. -/
def put_back {α : Type u} (s : PutBackState α) (x : α) : PutBackState α :=
  ⟨some x, s.iter⟩

/-- `PutBack::next`: take the slot if occupied, else pull the base iterator. -/
def next {α : Type u} (s : PutBackState α) : Option α × PutBackState α :=
  match s.top with
  | some x => (some x, ⟨none, s.iter⟩)
  | none =>
    match s.iter with
    | [] => (none, s)
    | x :: rest => (some x, ⟨none, rest⟩)

/-- `PutBack::size_hint` at the level of the base iterator's reported hint
`(lo, hi)` and whether the slot is occupied:
`(lo.saturating_add(1), hi.and_then(|x| x.checked_add(1)))` when occupied. -/
def size_hint_of (topSome : Bool) (h : SizeHint) : SizeHint :=
  match topSome with
  | true => (saturating_add h.1 1, h.2.bind (fun x => checked_add x 1))
  | false => h

/-- `PutBack::size_hint` on a list-backed state. -/
def size_hint {α : Type u} (s : PutBackState α) : SizeHint :=
  size_hint_of s.top.isSome (listHint s.iter)

end PutBack

/-! ## Product (adaptors.rs lines 141–202) -/

/-- State of `Product<A, I, J>`: left iterator `a`, retained current left
element `a_cur`, right iterator `b`, and the saved restart copy `b_orig`. -/
structure ProductState (α : Type u) (β : Type v) : Type (max u v) where
  a : List α
  a_cur : Option α
  b : List β
  b_orig : List β

namespace Product

/-- `Product::new(i, j)`: pull one element of `i` into `a_cur`; `b` and
`b_orig` are two clones of `j`. -/
def new {α : Type u} {β : Type v} (i : List α) (j : List β) : ProductState α β :=
  match i with
  | [] => ⟨[], none, j, j⟩
  | x :: rest => ⟨rest, some x, j, j⟩

/-- `Product::next`: pull `b`; on exhaustion reset `b` from `b_orig` and pull
again, advancing `a_cur` on success; emit `(a_cur, elt_b)` when `a_cur` is
present. -/
def next {α : Type u} {β : Type v} (s : ProductState α β) :
    Option (α × β) × ProductState α β :=
  match s.b with
  | [] =>
    match s.b_orig with
    | [] => (none, ⟨s.a, s.a_cur, [], []⟩)
    | y :: rest =>
      match s.a with
      | [] => (none, ⟨[], none, rest, s.b_orig⟩)
      | l :: a' => (some (l, y), ⟨a', some l, rest, s.b_orig⟩)
  | x :: b' =>
    match s.a_cur with
    | none => (none, ⟨s.a, none, b', s.b_orig⟩)
    | some l => (some (l, x), ⟨s.a, some l, b', s.b_orig⟩)

/-- `Product::size_hint` at the level of the three base hints
`(a, ah) = self.a.size_hint()`, `(b, bh) = self.b.size_hint()`,
`(bo, boh) = self.b_orig.size_hint()`: computes `a * bo + b` for the lower
bound via checked arithmetic with `unwrap_or(uint::MAX)`, and for the upper
bound via checked arithmetic with `None` propagation. -/
def size_hint_of (ha hb hbo : SizeHint) : SizeHint :=
  let low := ((checked_mul ha.1 hbo.1).bind
      (fun x => checked_add x hb.1)).getD UINT_MAX
  let high := ((ha.2.bind (fun x => hbo.2.bind (fun y => checked_mul x y))).bind
      (fun x => hb.2.bind (fun y => checked_add x y)))
  (low, high)

/-- `Product::size_hint` on a list-backed state. -/
def size_hint {α : Type u} {β : Type v} (s : ProductState α β) : SizeHint :=
  size_hint_of (listHint s.a) (listHint s.b) (listHint s.b_orig)

end Product

/-! ## Dedup (adaptors.rs lines 209–252) -/

/-- State of `Dedup<A, I>`: the last yielded element and the base iterator. -/
structure DedupState (α : Type u) : Type u where
  last : Option α
  iter : List α

namespace Dedup

/-- `Dedup::new(iter)`: no last element yet. -/
def new {α : Type u} (iter : List α) : DedupState α := ⟨none, iter⟩

/-- Loop body of `Dedup::next`: scan the base iterator, consuming and
skipping elements equal to `last`, yielding (and recording) the first
differing element. -/
def nextAux {α : Type u} [DecidableEq α] :
    Option α → List α → Option α × DedupState α
  | last, [] => (none, ⟨last, []⟩)
  | last, x :: rest =>
    if last = some x then nextAux last rest
    else (some x, ⟨some x, rest⟩)

/-- `Dedup::next` on a state. -/
def next {α : Type u} [DecidableEq α] (s : DedupState α) :
    Option α × DedupState α :=
  nextAux s.last s.iter

/-- `Dedup::size_hint`: `(0, upper)` when an element was already yielded or
the base lower bound is `0` (they might all be duplicates), else
`(1, upper)`. -/
def size_hint {α : Type u} (s : DedupState α) : SizeHint :=
  let lower := (listHint s.iter).1
  let upper := (listHint s.iter).2
  if s.last.isSome || lower = 0 then (0, upper) else (1, upper)

end Dedup

/-! ## ZipLongest (declared in src/src/lib.rs, module `zip` not under src/) -/

/-- The 3-variant tagged union yielded by `ZipLongest`
(`itertools::EitherOrBoth`). -/
inductive EitherOrBoth (α : Type u) (β : Type v) : Type (max u v)
  | Both : α → β → EitherOrBoth α β
  | Left : α → EitherOrBoth α β
  | Right : β → EitherOrBoth α β
deriving DecidableEq, Repr

/-- State of `ZipLongest<I, J>`: the two base iterators, each a list holding
the elements not yet consumed from either end. -/
structure ZipLongestState (α : Type u) (β : Type v) : Type (max u v) where
  a : List α
  b : List β

namespace ZipLongest

/-- `zip_longest(a, b)`. -/
def new {α : Type u} {β : Type v} (a : List α) (b : List β) :
    ZipLongestState α β := ⟨a, b⟩

/-- Modelled from the spec: the `zip_longest` forward pull (`ZipLongest::next`
from the missing module `src/zip.rs`), §4.5: "pull both while neither is
exhausted; once A ends, continue yielding Right-tagged values from B alone
(symmetric for B); once both end, yield end forever". -/
def next {α : Type u} {β : Type v} (s : ZipLongestState α β) :
    Option (EitherOrBoth α β) × ZipLongestState α β :=
  match s.a, s.b with
  | [], [] => (none, ⟨[], []⟩)
  | x :: a', [] => (some (EitherOrBoth.Left x), ⟨a', []⟩)
  | [], y :: b' => (some (EitherOrBoth.Right y), ⟨[], b'⟩)
  | x :: a', y :: b' => (some (EitherOrBoth.Both x y), ⟨a', b'⟩)

/-- Modelled from the spec: the `zip_longest` back pull
(`ZipLongest::next_back` from the missing module `src/zip.rs`), §4.5:
"Back-pulling, when both members support it, first drains the
length-difference tail before resuming symmetric Both-tagged pairs in
reverse". -/
def next_back {α : Type u} {β : Type v} (s : ZipLongestState α β) :
    Option (EitherOrBoth α β) × ZipLongestState α β :=
  if s.b.length < s.a.length then
    match s.a.getLast? with
    | some x => (some (EitherOrBoth.Left x), ⟨s.a.dropLast, s.b⟩)
    | none => (none, s)
  else if s.a.length < s.b.length then
    match s.b.getLast? with
    | some y => (some (EitherOrBoth.Right y), ⟨s.a, s.b.dropLast⟩)
    | none => (none, s)
  else
    match s.a.getLast?, s.b.getLast? with
    | some x, some y =>
      (some (EitherOrBoth.Both x y), ⟨s.a.dropLast, s.b.dropLast⟩)
    | _, _ => (none, s)

end ZipLongest

/-! ## Reference trace functions

Closed-form descriptions of what each adaptor yields, used as right-hand
sides of the correctness theorems. -/

/-- The interleaving of two lists: alternate starting with `a`, and once one
list is exhausted append the rest of the other. -/
def interleaveList {α : Type u} : List α → List α → List α
  | [], b => b
  | x :: a', b => x :: interleaveList b a'
termination_by a b => a.length + b.length

/-- The cartesian product in right-fastest odometer order. -/
def prodList {α : Type u} {β : Type v} (l : List α) (r : List β) :
    List (α × β) :=
  l.flatMap (fun x => r.map (fun y => (x, y)))

/-- Model of `Vec::dedup` (the reference in tests/quick.rs `equal_dedup`):
keep the first element of each maximal run of consecutive equal elements. -/
def vecDedup {α : Type u} [DecidableEq α] : List α → List α
  | [] => []
  | [x] => [x]
  | x :: y :: rest =>
    if x = y then vecDedup (y :: rest) else x :: vecDedup (y :: rest)

/-- The elements `Dedup` yields from state `⟨last, iter⟩`. -/
def dedupFrom {α : Type u} [DecidableEq α] : Option α → List α → List α
  | _, [] => []
  | last, x :: rest =>
    if last = some x then dedupFrom last rest
    else x :: dedupFrom (some x) rest

/-! ## Auxiliary predicates and spec-side definitions -/

namespace Product

/-- Invariant of every `Product` state reachable by `new` followed by pulls:
the current-left slot is only empty once the left iterator is exhausted. -/
def Inv {α : Type u} {β : Type v} (s : ProductState α β) : Prop :=
  s.a_cur = none → s.a = []

instance {α : Type u} {β : Type v} [DecidableEq α] (s : ProductState α β) :
    Decidable (Inv s) := by unfold Inv; infer_instance

/-- The state yields no element on this pull nor on any later pull. -/
def producesNothing {α : Type u} {β : Type v} (s : ProductState α β) : Prop :=
  ∀ n : Nat, (Product.next (stepN Product.next n s)).1 = none

/-- The terminal region of `Product`: both right iterators exhausted, or the
left side exhausted (iterator empty with no current element). -/
def EndState {α : Type u} {β : Type v} (s : ProductState α β) : Prop :=
  (s.b = [] ∧ s.b_orig = []) ∨ (s.a = [] ∧ s.a_cur = none)

end Product

/-- Modelled from the spec, §4.1 (the Bounds Contract component is not under
src/): `combine_product` on two `(lower, upper)` pairs — saturating multiply
on the lowers, checked multiply with unknown propagation on the uppers. -/
def combine_product_spec (x y : SizeHint) : SizeHint :=
  (min (x.1 * y.1) UINT_MAX,
    x.2.bind (fun a => y.2.bind (fun b => checked_mul a b)))

/-- Modelled from the spec, §4.1 (the Bounds Contract component is not under
src/): `combine_sum` on two `(lower, upper)` pairs — saturating add on the
lowers, checked add with unknown propagation on the uppers. -/
def combine_sum_spec (x y : SizeHint) : SizeHint :=
  (min (x.1 + y.1) UINT_MAX,
    x.2.bind (fun a => y.2.bind (fun b => checked_add a b)))

/-- Drive a `ZipLongest` state through a script of pulls (`true` = forward
`next`, `false` = backward `next_back`), collecting each pull's result. -/
def pullSeq {α : Type u} {β : Type v} :
    List Bool → ZipLongestState α β → List (Option (EitherOrBoth α β))
  | [], _ => []
  | d :: ds, s =>
    let r := if d then ZipLongest.next s else ZipLongest.next_back s
    r.1 :: pullSeq ds r.2

/-! ## Lemmas about Interleave -/

theorem interleaveList_nil_right {α : Type u} (l : List α) :
    interleaveList l [] = l := by
  cases l with
  | nil => simp [interleaveList]
  | cons x a => simp [interleaveList]

theorem interleave_run_both {α : Type u} :
    ∀ (fuel : Nat) (a b : List α), a.length + b.length ≤ fuel →
      runIt Interleave.next fuel ⟨a, b, false⟩ = interleaveList a b ∧
      runIt Interleave.next fuel ⟨a, b, true⟩ = interleaveList b a := by
  intro fuel
  induction fuel with
  | zero =>
    intro a b h
    have ha : a = [] := by cases a <;> simp_all
    have hb : b = [] := by cases b <;> simp_all
    subst ha; subst hb
    constructor <;> simp [runIt, interleaveList]
  | succ n ih =>
    intro a b h
    constructor
    · cases a with
      | nil =>
        cases b with
        | nil => simp [runIt, Interleave.next, interleaveList]
        | cons y b' =>
          have h2 := (ih [] b' (by simp at h ⊢; omega)).2
          simp [runIt, Interleave.next, interleaveList, h2,
            interleaveList_nil_right]
      | cons x a' =>
        have h2 := (ih a' b (by simp at h ⊢; omega)).2
        simp [runIt, Interleave.next, interleaveList, h2]
    · cases b with
      | nil =>
        cases a with
        | nil => simp [runIt, Interleave.next, interleaveList]
        | cons x a' =>
          have h2 := (ih a' [] (by simp at h ⊢; omega)).1
          simp [runIt, Interleave.next, interleaveList, h2,
            interleaveList_nil_right]
      | cons y b' =>
        have h2 := (ih a b' (by simp at h ⊢; omega)).1
        simp [runIt, Interleave.next, interleaveList, h2]

theorem interleaveList_perm {α : Type u} :
    ∀ (a b : List α), (interleaveList a b).Perm (a ++ b) := by
  intro a b
  induction a, b using interleaveList.induct with
  | case1 b => simp [interleaveList]
  | case2 x a' b ih =>
    simp only [interleaveList, List.cons_append]
    exact (ih.cons x).trans (List.perm_append_comm.cons x)

/-! ## Lemmas about Product -/

theorem runIt_of_none {σ : Type u} {α : Type v} (step : σ → Option α × σ)
    (s : σ) (h : (step s).1 = none) (fuel : Nat) : runIt step fuel s = [] := by
  cases fuel with
  | zero => rfl
  | succ n =>
    rcases h' : step s with ⟨r, s'⟩
    rw [h'] at h
    simp at h
    subst h
    simp [runIt, h']

theorem prodList_nil_right {α : Type u} {β : Type v} (l : List α) :
    prodList l ([] : List β) = [] := by
  simp [prodList]

theorem prodList_length {α : Type u} {β : Type v} (l : List α) (r : List β) :
    (prodList l r).length = l.length * r.length := by
  induction l with
  | nil => simp [prodList]
  | cons x l' ih =>
    simp [prodList, Nat.succ_mul] at ih ⊢
    omega

theorem product_dead_step {α : Type u} {β : Type v} (s : ProductState α β)
    (ha : s.a = []) (hc : s.a_cur = none) :
    (Product.next s).1 = none ∧ (Product.next s).2.a = [] ∧
      (Product.next s).2.a_cur = none := by
  rcases s with ⟨a, ac, b, bo⟩
  dsimp at ha hc
  subst ha; subst hc
  cases b with
  | nil => cases bo with
    | nil => simp [Product.next]
    | cons y rest => simp [Product.next]
  | cons x b' => simp [Product.next]

theorem product_dead_forever {α : Type u} {β : Type v} :
    ∀ (n : Nat) (s : ProductState α β), s.a = [] → s.a_cur = none →
      (Product.next (stepN Product.next n s)).1 = none := by
  intro n
  induction n with
  | zero =>
    intro s ha hc
    exact (product_dead_step s ha hc).1
  | succ m ih =>
    intro s ha hc
    have h := product_dead_step s ha hc
    exact ih (Product.next s).2 h.2.1 h.2.2

theorem product_run_cur {α : Type u} {β : Type v} :
    ∀ (a : List α) (l : α) (b R : List β) (fuel : Nat),
      b.length + a.length * R.length + 1 ≤ fuel →
      runIt Product.next fuel ⟨a, some l, b, R⟩
        = b.map (fun y => (l, y)) ++ prodList a R := by
  intro a
  induction a with
  | nil =>
    intro l b R
    induction b with
    | nil =>
      intro fuel hf
      obtain ⟨n, rfl⟩ : ∃ n, fuel = n + 1 := ⟨fuel - 1, by omega⟩
      cases R with
      | nil => simp [runIt, Product.next, prodList]
      | cons y rest => simp [runIt, Product.next, prodList]
    | cons x b' ihb =>
      intro fuel hf
      obtain ⟨n, rfl⟩ : ∃ n, fuel = n + 1 := ⟨fuel - 1, by omega⟩
      have h2 := ihb n (by simp at hf ⊢; omega)
      simp [runIt, Product.next, h2]
  | cons l' a' iha =>
    intro l b R
    induction b with
    | nil =>
      intro fuel hf
      obtain ⟨n, rfl⟩ : ∃ n, fuel = n + 1 := ⟨fuel - 1, by omega⟩
      cases R with
      | nil => simp [runIt, Product.next, prodList]
      | cons y rest =>
        have hexp : (l' :: a').length * (y :: rest).length
            = a'.length * (y :: rest).length + (y :: rest).length := by
          simp [Nat.succ_mul]
        have h2 := iha l' rest (y :: rest) n (by
          simp only [List.length_cons] at hexp hf ⊢
          omega)
        simp only [runIt, Product.next]
        rw [h2]
        simp [prodList]
    | cons x b' ihb =>
      intro fuel hf
      obtain ⟨n, rfl⟩ : ∃ n, fuel = n + 1 := ⟨fuel - 1, by omega⟩
      have h2 := ihb n (by simp at hf ⊢; omega)
      simp [runIt, Product.next, h2]

/-! ## Lemmas about PutBack -/

theorem putback_run_none {α : Type u} :
    ∀ (l : List α) (fuel : Nat), l.length + 1 ≤ fuel →
      runIt PutBack.next fuel ⟨none, l⟩ = l := by
  intro l
  induction l with
  | nil =>
    intro fuel hf
    obtain ⟨n, rfl⟩ : ∃ n, fuel = n + 1 := ⟨fuel - 1, by omega⟩
    simp [runIt, PutBack.next]
  | cons x rest ih =>
    intro fuel hf
    obtain ⟨n, rfl⟩ : ∃ n, fuel = n + 1 := ⟨fuel - 1, by omega⟩
    have h2 := ih n (by simp at hf ⊢; omega)
    simp [runIt, PutBack.next, h2]

theorem putback_run {α : Type u} (s : PutBackState α) :
    ∀ (fuel : Nat), s.iter.length + 2 ≤ fuel →
      runIt PutBack.next fuel s = s.top.toList ++ s.iter := by
  rcases s with ⟨top, iter⟩
  intro fuel hf
  simp only at hf
  cases top with
  | none => simpa using putback_run_none iter fuel (by omega)
  | some x =>
    obtain ⟨n, rfl⟩ : ∃ n, fuel = n + 1 := ⟨fuel - 1, by omega⟩
    have h2 := putback_run_none iter n (by omega)
    simp [runIt, PutBack.next, h2]

/-! ## Lemmas about Dedup -/

theorem dedup_next_skip {α : Type u} [DecidableEq α] (x : α) (rest : List α) :
    Dedup.next ⟨some x, x :: rest⟩ = Dedup.next ⟨some x, rest⟩ := by
  simp [Dedup.next, Dedup.nextAux]

theorem dedup_run {α : Type u} [DecidableEq α] :
    ∀ (l : List α) (last : Option α) (fuel : Nat), l.length + 1 ≤ fuel →
      runIt Dedup.next fuel ⟨last, l⟩ = dedupFrom last l := by
  intro l
  induction l with
  | nil =>
    intro last fuel hf
    obtain ⟨n, rfl⟩ : ∃ n, fuel = n + 1 := ⟨fuel - 1, by omega⟩
    simp [runIt, Dedup.next, Dedup.nextAux, dedupFrom]
  | cons x rest ih =>
    intro last fuel hf
    obtain ⟨n, rfl⟩ : ∃ n, fuel = n + 1 := ⟨fuel - 1, by omega⟩
    by_cases hl : last = some x
    · subst hl
      have hstep : Dedup.next ⟨some x, x :: rest⟩ = Dedup.next ⟨some x, rest⟩ :=
        dedup_next_skip x rest
      have h2 : runIt Dedup.next (n + 1) (⟨some x, x :: rest⟩ : DedupState α)
          = runIt Dedup.next (n + 1) ⟨some x, rest⟩ := by
        simp only [runIt, hstep]
      rw [h2, ih (some x) (n + 1) (by simp at hf ⊢; omega)]
      simp [dedupFrom]
    · have hnext : Dedup.next ⟨last, x :: rest⟩ = (some x, ⟨some x, rest⟩) := by
        simp [Dedup.next, Dedup.nextAux, hl]
      have h2 := ih (some x) n (by simp at hf ⊢; omega)
      simp [runIt, hnext, h2, dedupFrom, hl]

theorem dedupFrom_length_le {α : Type u} [DecidableEq α] :
    ∀ (l : List α) (last : Option α), (dedupFrom last l).length ≤ l.length := by
  intro l
  induction l with
  | nil => intro last; simp [dedupFrom]
  | cons x rest ih =>
    intro last
    by_cases hl : last = some x
    · subst hl
      have h1 := ih (some x)
      simp [dedupFrom]
      omega
    · have h1 := ih (some x)
      simp [dedupFrom, hl]
      omega

theorem vecDedup_cons_eq {α : Type u} [DecidableEq α] :
    ∀ (l : List α) (x : α), vecDedup (x :: l) = x :: dedupFrom (some x) l := by
  intro l
  induction l with
  | nil => intro x; simp [vecDedup, dedupFrom]
  | cons y rest ih =>
    intro x
    by_cases hxy : x = y
    · subst hxy
      simp [vecDedup, dedupFrom, ih x]
    · simp [vecDedup, dedupFrom, hxy, ih y]

theorem dedupFrom_none_eq_vecDedup {α : Type u} [DecidableEq α] (l : List α) :
    dedupFrom none l = vecDedup l := by
  cases l with
  | nil => simp [dedupFrom, vecDedup]
  | cons x rest => simp [dedupFrom, vecDedup_cons_eq]

theorem dedupFrom_sorted_lt :
    ∀ (l : List Int) (x : Int), List.Sorted (· ≤ ·) (x :: l) →
      List.Sorted (· < ·) (x :: dedupFrom (some x) l) := by
  intro l
  induction l with
  | nil => intro x _; simp [dedupFrom]
  | cons y rest ih =>
    intro x hs
    rw [List.sorted_cons] at hs
    by_cases hxy : x = y
    · subst hxy
      have h2 := ih x (by
        rw [List.sorted_cons]
        exact ⟨fun b hb => (List.sorted_cons.mp hs.2).1 b hb, (List.sorted_cons.mp hs.2).2⟩)
      simpa [dedupFrom] using h2
    · have h2 := ih y hs.2
      have hxlt : x < y := lt_of_le_of_ne (hs.1 y (by simp)) hxy
      rw [List.sorted_cons]
      refine ⟨?_, by simpa [dedupFrom, hxy] using h2⟩
      intro b hb
      simp only [dedupFrom, Option.some.injEq, hxy, if_false] at hb
      rcases List.mem_cons.mp hb with rfl | hb2
      · exact hxlt
      · exact hxlt.trans ((List.sorted_cons.mp h2).1 b hb2)

theorem product_low_getD (la lb lbo : Nat) :
    ((checked_mul la lbo).bind (fun x => checked_add x lb)).getD UINT_MAX
      = min (la * lbo + lb) UINT_MAX := by
  by_cases h1 : la * lbo ≤ UINT_MAX
  · rw [show checked_mul la lbo = some (la * lbo) from by
        unfold checked_mul; rw [if_pos h1],
      Option.some_bind]
    by_cases h2 : la * lbo + lb ≤ UINT_MAX
    · rw [show checked_add (la * lbo) lb = some (la * lbo + lb) from by
          unfold checked_add; rw [if_pos h2],
        Option.getD_some]
      omega
    · rw [show checked_add (la * lbo) lb = none from by
          unfold checked_add; rw [if_neg h2],
        Option.getD_none]
      omega
  · rw [show checked_mul la lbo = none from by
        unfold checked_mul; rw [if_neg h1],
      Option.none_bind, Option.getD_none]
    omega

/-! ## Claim theorems -/

/-- C10: Interleave totality and order: for all finite inputs `a` and `b`,
`Interleave::new(a, b)` yields exactly `interleaveList a b` — alternating
`a, b, a, b, …` starting with `a`'s first element, and once one input is
exhausted continuing with the remaining elements of the other, each input's
order preserved — then end (extra fuel yields nothing further); the output
has `len a + len b` elements and is a permutation of `a ++ b`, so every
element of both inputs is yielded exactly once. -/
theorem interleave_totality_order {α : Type u} (a b : List α) (extra : Nat) :
    runIt Interleave.next (a.length + b.length + extra) (Interleave.new a b)
        = interleaveList a b ∧
    (interleaveList a b).length = a.length + b.length ∧
    (interleaveList a b).Perm (a ++ b) := by
  refine ⟨?_, ?_, interleaveList_perm a b⟩
  · simp only [Interleave.new]
    exact (interleave_run_both (a.length + b.length + extra) a b (by omega)).1
  · have h := (interleaveList_perm a b).length_eq
    simpa using h

/-- C2: Product odometer correctness: for all finite `L` and `R`,
`Product::new(L, R)` yields exactly the `|L| * |R|` pairs of `prodList L R`,
in right-fastest odometer order, then end (extra fuel yields nothing
further); in particular the product is empty when either input is empty. -/
theorem product_odometer_order {α : Type u} {β : Type v} (L : List α)
    (R : List β) (extra : Nat) :
    runIt Product.next (L.length * R.length + L.length + 1 + extra)
        (Product.new L R) = prodList L R ∧
    (prodList L R).length = L.length * R.length := by
  refine ⟨?_, prodList_length L R⟩
  cases L with
  | nil =>
    have hd := product_dead_step (Product.new ([] : List α) R) rfl rfl
    rw [runIt_of_none Product.next _ hd.1]
    simp [prodList]
  | cons l L' =>
    have hexp : (l :: L').length * R.length
        = L'.length * R.length + R.length := by
      simp [Nat.succ_mul]
    have h := product_run_cur L' l R R
        ((l :: L').length * R.length + (l :: L').length + 1 + extra)
        (by simp only [List.length_cons] at hexp ⊢; omega)
    simp only [Product.new]
    rw [h]
    simp [prodList]

/-- C6: Product is terminal at construction: if the left sequence is empty
when `Product::new` is called, then every pull — the `n`-th for every `n`,
counting all the state mutations earlier pulls performed — returns end. -/
theorem product_terminal_at_construction {α : Type u} {β : Type v}
    (R : List β) (n : Nat) :
    (Product.next (stepN Product.next n (Product.new ([] : List α) R))).1
      = none :=
  product_dead_forever n (Product.new [] R) rfl rfl

/-- C5: ZipLongest mixed-direction tagging (modelled from the spec, the
`zip` module not being under src/): on `[1,2,3,4,5,6]` and `[1,2,3,7]`,
pulling forward twice, backward three times, then forward twice yields
`Both(1,1), Both(2,2)`, then `Left(6), Left(5), Both(4,7)`, then
`Both(3,3)`, then end. -/
theorem stepN_pres {σ : Type u} {α : Type v} (step : σ → Option α × σ)
    (P : σ → Prop) (hstep : ∀ s, P s → P (step s).2) :
    ∀ (n : Nat) (s : σ), P s → P (stepN step n s) := by
  intro n
  induction n with
  | zero => intro s h; exact h
  | succ m ih => intro s h; exact ih (step s).2 (hstep s h)

theorem interleave_none_emptied {α : Type u} (s : InterleaveState α)
    (h : (Interleave.next s).1 = none) : s.a = [] ∧ s.b = [] := by
  rcases s with ⟨a, b, flag⟩
  cases a <;> cases b <;> cases flag <;> simp_all [Interleave.next]

theorem interleave_empty_step {α : Type u} (s : InterleaveState α)
    (h : s.a = [] ∧ s.b = []) :
    (Interleave.next s).1 = none ∧
      (Interleave.next s).2.a = [] ∧ (Interleave.next s).2.b = [] := by
  rcases s with ⟨a, b, flag⟩
  obtain ⟨rfl, rfl⟩ : a = [] ∧ b = [] := h
  cases flag <;> simp [Interleave.next]

theorem fnmap_none_emptied {α : Type u} {β : Type v} (s : FnMapState α β)
    (h : (FnMap.next s).1 = none) : s.iter = [] := by
  rcases s with ⟨f, iter⟩
  cases iter <;> simp_all [FnMap.next]

theorem fnmap_empty_step {α : Type u} {β : Type v} (s : FnMapState α β)
    (h : s.iter = []) :
    (FnMap.next s).1 = none ∧ (FnMap.next s).2.iter = [] := by
  rcases s with ⟨f, iter⟩
  simp only at h
  subst h
  simp [FnMap.next]

theorem putback_none_emptied {α : Type u} (s : PutBackState α)
    (h : (PutBack.next s).1 = none) : s.top = none ∧ s.iter = [] := by
  rcases s with ⟨top, iter⟩
  cases top <;> cases iter <;> simp_all [PutBack.next]

theorem putback_empty_step {α : Type u} (s : PutBackState α)
    (h : s.top = none ∧ s.iter = []) :
    (PutBack.next s).1 = none ∧
      (PutBack.next s).2.top = none ∧ (PutBack.next s).2.iter = [] := by
  rcases s with ⟨top, iter⟩
  obtain ⟨rfl, rfl⟩ : top = none ∧ iter = [] := h
  simp [PutBack.next]

theorem dedup_nextAux_none_emptied {α : Type u} [DecidableEq α] :
    ∀ (l : List α) (last : Option α), (Dedup.nextAux last l).1 = none →
      (Dedup.nextAux last l).2.iter = [] := by
  intro l
  induction l with
  | nil => intro last _; simp [Dedup.nextAux]
  | cons x rest ih =>
    intro last h
    by_cases hl : last = some x
    · rw [show Dedup.nextAux last (x :: rest) = Dedup.nextAux last rest by
        simp [Dedup.nextAux, hl]] at h ⊢
      exact ih last h
    · simp [Dedup.nextAux, hl] at h

theorem dedup_empty_step {α : Type u} [DecidableEq α] (s : DedupState α)
    (h : s.iter = []) :
    (Dedup.next s).1 = none ∧ (Dedup.next s).2.iter = [] := by
  rcases s with ⟨last, iter⟩
  simp only at h
  subst h
  simp [Dedup.next, Dedup.nextAux]

theorem product_endstate_step {α : Type u} {β : Type v}
    (s : ProductState α β) (h : Product.EndState s) :
    (Product.next s).1 = none ∧ Product.EndState (Product.next s).2 := by
  rcases h with ⟨hb, hbo⟩ | ⟨ha, hac⟩
  · rcases s with ⟨a, ac, b, bo⟩
    simp only at hb hbo
    subst hb; subst hbo
    exact ⟨by simp [Product.next], Or.inl (by simp [Product.next])⟩
  · have hd := product_dead_step s ha hac
    exact ⟨hd.1, Or.inr ⟨hd.2.1, hd.2.2⟩⟩

theorem product_none_endstate {α : Type u} {β : Type v}
    (s : ProductState α β) (hInv : Product.Inv s)
    (h : (Product.next s).1 = none) : Product.EndState (Product.next s).2 := by
  rcases s with ⟨a, ac, b, bo⟩
  cases b with
  | nil =>
    cases bo with
    | nil => exact Or.inl (by simp [Product.next])
    | cons y rest =>
      cases a with
      | nil => exact Or.inr (by simp [Product.next])
      | cons l a' => simp [Product.next] at h
  | cons x b' =>
    cases ac with
    | none =>
      have ha : a = [] := hInv rfl
      subst ha
      exact Or.inr (by simp [Product.next])
    | some l => simp [Product.next] at h

theorem product_inv_step {α : Type u} {β : Type v} (s : ProductState α β)
    (hInv : Product.Inv s) : Product.Inv (Product.next s).2 := by
  rcases s with ⟨a, ac, b, bo⟩
  cases b with
  | nil =>
    cases bo with
    | nil => exact hInv
    | cons y rest =>
      cases a with
      | nil => intro _; simp [Product.next]
      | cons l a' => intro hc; simp [Product.next] at hc
  | cons x b' =>
    cases ac with
    | none =>
      have ha : a = [] := hInv rfl
      subst ha
      intro _; simp [Product.next]
    | some l => intro hc; simp [Product.next] at hc

theorem zip_longest_mixed_trace :
    pullSeq [true, true, false, false, false, true, true]
        (ZipLongest.new ([1, 2, 3, 4, 5, 6] : List Int) ([1, 2, 3, 7] : List Int))
      = [some (EitherOrBoth.Both 1 1), some (EitherOrBoth.Both 2 2),
         some (EitherOrBoth.Left 6), some (EitherOrBoth.Left 5),
         some (EitherOrBoth.Both 4 7), some (EitherOrBoth.Both 3 3), none] := by
  decide

/-- C9: Dedup reference correctness: for every input list, Dedup yields
exactly `vecDedup` of the list — the first element of each maximal run of
consecutive equal elements, in input order, the `Vec::dedup` reference of
tests/quick.rs `equal_dedup` — then end (extra fuel yields nothing more);
consequently on an input sorted by `≤` the yielded elements are pairwise
distinct. -/
theorem dedup_reference_correctness {α : Type u} [DecidableEq α] :
    (∀ (l : List α) (extra : Nat),
      runIt Dedup.next (l.length + 1 + extra) (Dedup.new l) = vecDedup l) ∧
    (∀ l : List Int, List.Sorted (· ≤ ·) l →
      (runIt Dedup.next (l.length + 1) (Dedup.new l)).Pairwise (· ≠ ·)) := by
  constructor
  · intro l extra
    rw [show Dedup.new l = (⟨none, l⟩ : DedupState α) from rfl,
      dedup_run l none (l.length + 1 + extra) (by omega),
      dedupFrom_none_eq_vecDedup]
  · intro l hs
    rw [show Dedup.new l = (⟨none, l⟩ : DedupState Int) from rfl,
      dedup_run l none (l.length + 1) (by omega)]
    cases l with
    | nil => simp [dedupFrom]
    | cons x rest =>
      have h2 := dedupFrom_sorted_lt rest x hs
      rw [show dedupFrom none (x :: rest) = x :: dedupFrom (some x) rest by
        simp [dedupFrom]]
      exact List.Pairwise.imp (fun h => ne_of_lt h) h2

/-- C9 witness: on the sorted list `[1,1,2,2,3]`, Dedup yields `[1,2,3]`
(equal to `vecDedup`), and the yielded elements are pairwise distinct. -/
theorem dedup_reference_correctness_witness :
    runIt Dedup.next 6 (Dedup.new ([1, 1, 2, 2, 3] : List Int)) = [1, 2, 3] ∧
    (runIt Dedup.next 6 (Dedup.new ([1, 1, 2, 2, 3] : List Int))).Pairwise
      (· ≠ ·) := by
  constructor
  · exact ((dedup_reference_correctness (α := Int)).1 [1, 1, 2, 2, 3] 0).trans
      (by decide)
  · exact (dedup_reference_correctness (α := Int)).2 [1, 1, 2, 2, 3] (by decide)

/-- C8: Pull determinism: for every adaptor of the source, `next` is a pure
function of the adaptor state: two calls issued from equal states return
equal results and leave equal successor states — nothing transient enters
the outcome. -/
theorem pull_determinism {α β : Type u} [DecidableEq α] :
    (∀ s t : InterleaveState α, s = t → Interleave.next s = Interleave.next t) ∧
    (∀ s t : FnMapState α β, s = t → FnMap.next s = FnMap.next t) ∧
    (∀ s t : PutBackState α, s = t → PutBack.next s = PutBack.next t) ∧
    (∀ s t : ProductState α β, s = t → Product.next s = Product.next t) ∧
    (∀ s t : DedupState α, s = t → Dedup.next s = Dedup.next t) :=
  ⟨fun _ _ h => by rw [h], fun _ _ h => by rw [h], fun _ _ h => by rw [h],
    fun _ _ h => by rw [h], fun _ _ h => by rw [h]⟩

/-- C8 witness: determinism applied at one concrete state per adaptor. -/
theorem pull_determinism_witness :
    Interleave.next (⟨[1], [2], false⟩ : InterleaveState Int)
        = Interleave.next ⟨[1], [2], false⟩ ∧
    FnMap.next (⟨fun n => n + 1, [3]⟩ : FnMapState Int Int)
        = FnMap.next ⟨fun n => n + 1, [3]⟩ ∧
    PutBack.next (⟨some 4, [5]⟩ : PutBackState Int)
        = PutBack.next ⟨some 4, [5]⟩ ∧
    Product.next (⟨[6], some 7, [8], [8, 9]⟩ : ProductState Int Int)
        = Product.next ⟨[6], some 7, [8], [8, 9]⟩ ∧
    Dedup.next (⟨some 1, [1, 2]⟩ : DedupState Int)
        = Dedup.next ⟨some 1, [1, 2]⟩ :=
  ⟨(pull_determinism (α := Int) (β := Int)).1 _ _ rfl,
    (pull_determinism (α := Int) (β := Int)).2.1 _ _ rfl,
    (pull_determinism (α := Int) (β := Int)).2.2.1 _ _ rfl,
    (pull_determinism (α := Int) (β := Int)).2.2.2.1 _ _ rfl,
    (pull_determinism (α := Int) (β := Int)).2.2.2.2 _ _ rfl⟩

/-- C7: Idempotence of end: for Interleave, FnMap, PutBack and Dedup from
every state, and for Product from every state satisfying the reachability
invariant `Product.Inv` — which holds at construction and is preserved by
every pull, as the last two conjuncts prove — once `next` returns end, every
later call to `next` (after any number of further pulls) also returns end. -/
theorem end_idempotence {α β : Type u} [DecidableEq α] :
    (∀ (s : InterleaveState α) (n : Nat), (Interleave.next s).1 = none →
      (Interleave.next (stepN Interleave.next n (Interleave.next s).2)).1
        = none) ∧
    (∀ (s : FnMapState α β) (n : Nat), (FnMap.next s).1 = none →
      (FnMap.next (stepN FnMap.next n (FnMap.next s).2)).1 = none) ∧
    (∀ (s : PutBackState α) (n : Nat), (PutBack.next s).1 = none →
      (PutBack.next (stepN PutBack.next n (PutBack.next s).2)).1 = none) ∧
    (∀ (s : DedupState α) (n : Nat), (Dedup.next s).1 = none →
      (Dedup.next (stepN Dedup.next n (Dedup.next s).2)).1 = none) ∧
    (∀ (L : List α) (R : List β), Product.Inv (Product.new L R)) ∧
    (∀ s : ProductState α β, Product.Inv s → Product.Inv (Product.next s).2) ∧
    (∀ (s : ProductState α β) (n : Nat), Product.Inv s →
      (Product.next s).1 = none →
      (Product.next (stepN Product.next n (Product.next s).2)).1 = none) := by
  refine ⟨?_, ?_, ?_, ?_, ?_, product_inv_step, ?_⟩
  · intro s n h
    have he := interleave_none_emptied s h
    have h1 := (interleave_empty_step s he).2
    have h2 := stepN_pres Interleave.next (fun t => t.a = [] ∧ t.b = [])
      (fun t ht => (interleave_empty_step t ht).2) n _ h1
    exact (interleave_empty_step _ h2).1
  · intro s n h
    have he := fnmap_none_emptied s h
    have h1 := (fnmap_empty_step s he).2
    have h2 := stepN_pres FnMap.next (fun t => t.iter = [])
      (fun t ht => (fnmap_empty_step t ht).2) n _ h1
    exact (fnmap_empty_step _ h2).1
  · intro s n h
    have he := putback_none_emptied s h
    have h1 := (putback_empty_step s he).2
    have h2 := stepN_pres PutBack.next (fun t => t.top = none ∧ t.iter = [])
      (fun t ht => (putback_empty_step t ht).2) n _ h1
    exact (putback_empty_step _ h2).1
  · intro s n h
    have he : (Dedup.next s).2.iter = [] :=
      dedup_nextAux_none_emptied s.iter s.last h
    have h2 := stepN_pres Dedup.next (fun t => t.iter = [])
      (fun t ht => (dedup_empty_step t ht).2) n _ he
    exact (dedup_empty_step _ h2).1
  · intro L R
    cases L <;> simp [Product.new, Product.Inv]
  · intro s n hInv h
    have h1 := product_none_endstate s hInv h
    have h2 := stepN_pres Product.next Product.EndState
      (fun t ht => (product_endstate_step t ht).2) n _ h1
    exact (product_endstate_step _ h2).1

/-- C7 witness: idempotence of end applied at one concrete ended state per
adaptor, plus the Product invariant at a concrete construction and pull. -/
theorem end_idempotence_witness :
    (Interleave.next (stepN Interleave.next 2
        (Interleave.next (⟨[], [], false⟩ : InterleaveState Int)).2)).1
      = none ∧
    (FnMap.next (stepN FnMap.next 2
        (FnMap.next (⟨fun n => n + 1, []⟩ : FnMapState Int Int)).2)).1
      = none ∧
    (PutBack.next (stepN PutBack.next 2
        (PutBack.next (⟨none, []⟩ : PutBackState Int)).2)).1 = none ∧
    (Dedup.next (stepN Dedup.next 2
        (Dedup.next (⟨some 1, [1, 1]⟩ : DedupState Int)).2)).1 = none ∧
    Product.Inv (Product.new ([3] : List Int) ([4] : List Int)) ∧
    Product.Inv (Product.next (⟨[], none, [5], [5]⟩ : ProductState Int Int)).2 ∧
    (Product.next (stepN Product.next 2
        (Product.next (⟨[], none, [5], [5]⟩ : ProductState Int Int)).2)).1
      = none :=
  ⟨(end_idempotence (α := Int) (β := Int)).1 _ 2 rfl,
    (end_idempotence (α := Int) (β := Int)).2.1 _ 2 rfl,
    (end_idempotence (α := Int) (β := Int)).2.2.1 _ 2 rfl,
    (end_idempotence (α := Int) (β := Int)).2.2.2.1 _ 2 rfl,
    (end_idempotence (α := Int) (β := Int)).2.2.2.2.1 [3] [4],
    (end_idempotence (α := Int) (β := Int)).2.2.2.2.2.1 _ (by decide),
    (end_idempotence (α := Int) (β := Int)).2.2.2.2.2.2 _ 2 (by decide) rfl⟩

/-- C1 counterexample: the Product constructed from an empty left list and
right `[0, 1]` reports `size_hint = (2, some 2)` yet will never yield an
element: the reported lower bound 2 exceeds the remaining count 0, so bounds
soundness fails for Product. -/
theorem product_bounds_unsound_cex :
    Product.size_hint (Product.new ([] : List Int) ([0, 1] : List Int))
        = (2, some 2) ∧
    Product.producesNothing (Product.new ([] : List Int) ([0, 1] : List Int))
      ∧ (2 : Nat) ≠ 0 := by
  refine ⟨by decide, ?_, by decide⟩
  intro n
  exact product_dead_forever n _ rfl rfl

/-- C1 (amended): bounds soundness holds for PutBack and Dedup at every
state: the reported lower bound never exceeds the number of elements the
adaptor will still yield, and that number never exceeds a reported upper
bound.  Product is removed from the claim: its size_hint can report a lower
bound exceeding the remaining count (see the counterexample). -/
theorem putback_dedup_bounds_sound {α : Type u} [DecidableEq α] :
    (∀ s : PutBackState α,
      (PutBack.size_hint s).1
          ≤ (runIt PutBack.next (s.iter.length + 2) s).length ∧
      ∀ u, (PutBack.size_hint s).2 = some u →
        (runIt PutBack.next (s.iter.length + 2) s).length ≤ u) ∧
    (∀ s : DedupState α,
      (Dedup.size_hint s).1
          ≤ (runIt Dedup.next (s.iter.length + 1) s).length ∧
      ∀ u, (Dedup.size_hint s).2 = some u →
        (runIt Dedup.next (s.iter.length + 1) s).length ≤ u) := by
  constructor
  · intro s
    rw [putback_run s (s.iter.length + 2) (by omega)]
    rcases s with ⟨top, iter⟩
    cases top with
    | none =>
      constructor
      · simp [PutBack.size_hint, PutBack.size_hint_of, listHint]
      · intro u hu
        simp [PutBack.size_hint, PutBack.size_hint_of, listHint] at hu
        simp [← hu]
    | some x =>
      constructor
      · have hle : saturating_add iter.length 1 ≤ iter.length + 1 :=
          min_le_left _ _
        simpa [PutBack.size_hint, PutBack.size_hint_of, listHint] using
          le_trans hle (by simp)
      · intro u hu
        simp only [PutBack.size_hint, PutBack.size_hint_of, listHint,
          Option.isSome_some, Option.some_bind, checked_add] at hu
        split at hu
        · simp only [Option.some.injEq] at hu
          simp [← hu]
        · simp at hu
  · intro s
    rcases s with ⟨last, iter⟩
    rw [show (⟨last, iter⟩ : DedupState α).iter = iter from rfl,
      dedup_run iter last (iter.length + 1) (by omega)]
    constructor
    · by_cases hc : last.isSome = true ∨ iter.length = 0
      · have h0 : (Dedup.size_hint (⟨last, iter⟩ : DedupState α)).1 = 0 := by
          rcases hc with hc | hc <;>
            simp [Dedup.size_hint, listHint, hc]
        simp [h0]
      · push_neg at hc
        have hlast : last = none := by
          cases last with
          | none => rfl
          | some x => simp at hc
        subst hlast
        cases iter with
        | nil => simp at hc
        | cons x rest =>
          have h1 : (Dedup.size_hint (⟨none, x :: rest⟩ : DedupState α)).1
              = 1 := by
            simp [Dedup.size_hint, listHint]
          rw [h1, show dedupFrom none (x :: rest)
              = x :: dedupFrom (some x) rest by simp [dedupFrom]]
          simp
    · intro u hu
      have hu2 : u = iter.length := by
        have : (Dedup.size_hint (⟨last, iter⟩ : DedupState α)).2
            = some iter.length := by
          by_cases hc : last.isSome = true ∨ iter.length = 0
          · rcases hc with hc | hc <;> simp [Dedup.size_hint, listHint, hc]
          · push_neg at hc
            simp [Dedup.size_hint, listHint, hc.1, hc.2]
        rw [this] at hu
        exact (Option.some_inj.mp hu).symm
      rw [hu2]
      exact dedupFrom_length_le iter last

/-- C1 witness: soundness applied at the concrete states
`PutBack ⟨some 5, [1, 2]⟩` (hint `(3, some 3)`, 3 elements remain) and
`Dedup ⟨none, [7, 7]⟩` (hint `(1, some 2)`, 1 element remains). -/
theorem putback_dedup_bounds_sound_witness :
    (PutBack.size_hint (⟨some 5, [1, 2]⟩ : PutBackState Int)).1
        ≤ (runIt PutBack.next 4 (⟨some 5, [1, 2]⟩ : PutBackState Int)).length ∧
    (runIt PutBack.next 4 (⟨some 5, [1, 2]⟩ : PutBackState Int)).length ≤ 3 ∧
    (Dedup.size_hint (⟨none, [7, 7]⟩ : DedupState Int)).1
        ≤ (runIt Dedup.next 3 (⟨none, [7, 7]⟩ : DedupState Int)).length ∧
    (runIt Dedup.next 3 (⟨none, [7, 7]⟩ : DedupState Int)).length ≤ 2 :=
  ⟨((putback_dedup_bounds_sound (α := Int)).1 ⟨some 5, [1, 2]⟩).1,
    ((putback_dedup_bounds_sound (α := Int)).1 ⟨some 5, [1, 2]⟩).2 3 (by decide),
    ((putback_dedup_bounds_sound (α := Int)).2 ⟨none, [7, 7]⟩).1,
    ((putback_dedup_bounds_sound (α := Int)).2 ⟨none, [7, 7]⟩).2 2 (by decide)⟩

/-- C3 counterexample: after one pull of `Product::new([1,2],[3,4])` the
state is `a = [2], a_cur = some 1, b = [4], b_orig = [3,4]`, and the code
reports lower bound 3 (= 1·2 + 1).  3 is not the product of the operands'
lower bounds under any reading: `lower(Left) ∈ {1, 2}` (the left iterator
alone, or including the retained current element) and
`lower(Right) ∈ {1, 2}` (the remaining right iterator `b`, or the replay
copy `b_orig`) give candidate products 2, 4, 1 and 2 — never 3. -/
theorem product_size_hint_formula_cex :
    (Product.next (Product.new ([1, 2] : List Int) ([3, 4] : List Int))).2
        = ⟨[2], some 1, [4], [3, 4]⟩ ∧
    (Product.size_hint (⟨[2], some 1, [4], [3, 4]⟩ : ProductState Int Int)).1
        = 3 ∧
    ((3 : Nat) ≠ 1 * 2 ∧ (3 : Nat) ≠ 2 * 2 ∧ (3 : Nat) ≠ 1 * 1 ∧
      (3 : Nat) ≠ 2 * 1) := by
  refine ⟨rfl, by decide, by decide⟩

/-- C3 (amended): at every state Product's reported bounds equal
`combine_sum(combine_product(bounds(a), bounds(b_orig)), bounds(b))`: the
lower bound is `lower(a)·lower(b_orig) + lower(b)` clamped at `uint::MAX`,
and the upper bound is `upper(a)·upper(b_orig) + upper(b)` computed with
checked arithmetic, unknown propagating when any operand's upper is unknown
or an operation overflows.  The term `+ bounds(b)` — the partially-consumed
right operand — is what the plain `lower(Left) × lower(Right)` formula
misses. -/
theorem product_size_hint_combine {α : Type u} {β : Type v} :
    (∀ ha hb hbo : SizeHint,
      Product.size_hint_of ha hb hbo
        = combine_sum_spec (combine_product_spec ha hbo) hb) ∧
    (∀ s : ProductState α β,
      Product.size_hint s
        = combine_sum_spec
            (combine_product_spec (listHint s.a) (listHint s.b_orig))
            (listHint s.b)) := by
  have hmain : ∀ ha hb hbo : SizeHint,
      Product.size_hint_of ha hb hbo
        = combine_sum_spec (combine_product_spec ha hbo) hb := by
    rintro ⟨la, ua⟩ ⟨lb, ub⟩ ⟨lbo, ubo⟩
    unfold Product.size_hint_of combine_sum_spec combine_product_spec
    simp only
    refine Prod.ext ?_ ?_
    · simp only [product_low_getD]
      omega
    · rfl
  exact ⟨hmain, fun s => hmain _ _ _⟩

/-- C4: size_hint bound arithmetic never wraps: PutBack's occupied-slot
lower bound (`saturating_add`) equals `min (lo + 1) uint::MAX` — clamped at
the representable maximum, never wrapped — and its upper bound
(`checked_add`) is unknown exactly when the base upper is unknown or the
exact sum exceeds `uint::MAX`; Product's lower bound
(`checked_mul`/`checked_add` with `unwrap_or(uint::MAX)`) equals
`min (a·b_orig + b) uint::MAX`, and its upper bound propagates unknown from
every operand and degrades to unknown on overflow, else is exact. -/
theorem size_hint_arith_safe :
    (∀ (lo : Nat) (hi : Option Nat),
      (PutBack.size_hint_of true (lo, hi)).1 = min (lo + 1) UINT_MAX ∧
      (PutBack.size_hint_of true (lo, hi)).1 ≤ UINT_MAX ∧
      (hi = none → (PutBack.size_hint_of true (lo, hi)).2 = none) ∧
      (∀ x, hi = some x → x + 1 ≤ UINT_MAX →
        (PutBack.size_hint_of true (lo, hi)).2 = some (x + 1)) ∧
      (∀ x, hi = some x → UINT_MAX < x + 1 →
        (PutBack.size_hint_of true (lo, hi)).2 = none)) ∧
    (∀ (la lb lbo : Nat) (ua ub ubo : Option Nat),
      (Product.size_hint_of (la, ua) (lb, ub) (lbo, ubo)).1
          = min (la * lbo + lb) UINT_MAX ∧
      (Product.size_hint_of (la, ua) (lb, ub) (lbo, ubo)).1 ≤ UINT_MAX ∧
      ((ua = none ∨ ubo = none ∨ ub = none) →
        (Product.size_hint_of (la, ua) (lb, ub) (lbo, ubo)).2 = none) ∧
      (∀ x y z, ua = some x → ubo = some y → ub = some z →
        x * y + z ≤ UINT_MAX →
        (Product.size_hint_of (la, ua) (lb, ub) (lbo, ubo)).2
          = some (x * y + z)) ∧
      (∀ x y z, ua = some x → ubo = some y → ub = some z →
        UINT_MAX < x * y + z →
        (Product.size_hint_of (la, ua) (lb, ub) (lbo, ubo)).2 = none)) := by
  constructor
  · intro lo hi
    refine ⟨rfl, min_le_right _ _, ?_, ?_, ?_⟩
    · rintro rfl
      rfl
    · rintro x rfl hx
      simp [PutBack.size_hint_of, checked_add, hx]
    · rintro x rfl hx
      simp [PutBack.size_hint_of, checked_add]
      omega
  · intro la lb lbo ua ub ubo
    refine ⟨?_, ?_, ?_, ?_, ?_⟩
    · simpa only [Product.size_hint_of] using product_low_getD la lb lbo
    · rw [show (Product.size_hint_of (la, ua) (lb, ub) (lbo, ubo)).1
          = min (la * lbo + lb) UINT_MAX from by
        simpa only [Product.size_hint_of] using product_low_getD la lb lbo]
      exact min_le_right _ _
    · rintro (rfl | rfl | rfl)
      · rfl
      · cases ua <;> rfl
      · show ((ua.bind fun x => ubo.bind fun y => checked_mul x y).bind
            fun x => (none : Option Nat).bind fun y => checked_add x y) = none
        cases ua.bind fun x => ubo.bind fun y => checked_mul x y <;> rfl
    · rintro x y z rfl rfl rfl hle
      have hm : x * y ≤ UINT_MAX := by omega
      simp [Product.size_hint_of, checked_mul, checked_add, hm, hle]
    · rintro x y z rfl rfl rfl hlt
      by_cases hm : x * y ≤ UINT_MAX
      · simp [Product.size_hint_of, checked_mul, checked_add, hm]
        omega
      · simp [Product.size_hint_of, checked_mul, hm]

/-- C4 witness: the arithmetic characterization applied at concrete bounds,
including an unknown upper, an exact upper and an overflowing upper for each
of PutBack and Product. -/
theorem size_hint_arith_safe_witness :
    (PutBack.size_hint_of true (0, some 3)).2 = some 4 ∧
    (PutBack.size_hint_of true (1, none)).2 = none ∧
    (PutBack.size_hint_of true (2, some UINT_MAX)).2 = none ∧
    (Product.size_hint_of (2, some 2) (1, some 1) (3, some 3)).2 = some 7 ∧
    (Product.size_hint_of (0, none) (0, some 0) (0, some 0)).2 = none ∧
    (Product.size_hint_of (0, some UINT_MAX) (0, some 2) (0, some 1)).2
      = none :=
  ⟨(size_hint_arith_safe.1 0 (some 3)).2.2.2.1 3 rfl (by decide),
    (size_hint_arith_safe.1 1 none).2.2.1 rfl,
    (size_hint_arith_safe.1 2 (some UINT_MAX)).2.2.2.2 UINT_MAX rfl
      (by omega),
    (size_hint_arith_safe.2 2 1 3 (some 2) (some 1) (some 3)).2.2.2.1 2 3 1
      rfl rfl rfl (by decide),
    (size_hint_arith_safe.2 0 0 0 none (some 0) (some 0)).2.2.1 (Or.inl rfl),
    (size_hint_arith_safe.2 0 0 0 (some UINT_MAX) (some 1) (some 2)).2.2.2.2
      UINT_MAX 2 1 rfl rfl rfl (by omega)⟩

end Itertools
